import Mathlib

/-!
Verification of the spaced-repetition progress core of the
portuguese-learning-backend repository, embedded from
`src/routes/flashcards.js` (the variant defining `getProgressEntry`,
`setProgressEntry` and `router.post('/review')`).

Modelling choices:
* JS numbers are modelled as exact rationals `ℚ` (every literal used by the
  scheduler — 0.15, 0.8, 0.1, 1.3, 1.8, 2.5, 2.6, 3.0 — is finite decimal).
* Timestamps (`Date` / ISO strings) are modelled as milliseconds-since-epoch
  rationals; `null` timestamps are `none`.
* A JS object used as a map keyed by word id is modelled as an association
  list in insertion order: property assignment replaces in place when the key
  exists, else appends (word ids are 24-char ObjectId strings, distinct from
  the reserved property names `mastered` / `needsReview`, so the map and the
  two legacy arrays are modelled as separate fields).
* A possibly-absent / non-number field of legacy persisted data is an
  `Option`.
-/

namespace Flashcards

/-- The per-word progress record (the R2 / canonical "WordProgress" shape):
`{ease, interval, reviewCount, lastReviewed, nextReview}`. -/
structure WordProgress where
  ease : ℚ
  interval : ℚ
  reviewCount : ℕ
  lastReviewed : Option ℚ
  nextReview : Option ℚ
deriving DecidableEq, Repr

/-- An entry of the `wordsHistory` array (the R3 history log). Legacy data may
lack fields or hold non-numbers, hence the `Option`s on the numeric fields. -/
structure HistoryEntry where
  wordId : String
  ease : Option ℚ
  interval : Option ℚ
  reviewCount : Option ℕ
  lastReviewed : Option ℚ
  nextReview : Option ℚ
deriving DecidableEq, Repr

/-- `user.progress.words`: the preferred map plus the two legacy id arrays
(R1). -/
structure Words where
  map : List (String × WordProgress)
  mastered : List String
  needsReview : List String
deriving DecidableEq, Repr

/-- `user.progress`: the words container and the `wordsHistory` array. -/
structure UserProgress where
  words : Words
  wordsHistory : List HistoryEntry
deriving DecidableEq, Repr

/-- The slice of a user document the progress core touches. `progress` may be
absent (`!user.progress` in JS). -/
structure User where
  progress : Option UserProgress
deriving DecidableEq, Repr

/-- The empty containers that `setProgressEntry` creates when shapes are
missing. -/
def emptyProgress : UserProgress :=
  { words := { map := [], mastered := [], needsReview := [] }, wordsHistory := [] }

/-- JS object property read `obj[wordId]`: first binding for the key, if
any. -/
def assocGet : List (String × WordProgress) → String → Option WordProgress
  | [], _ => none
  | (k, v) :: rest, w => if k = w then some v else assocGet rest w

/-- JS object property write `obj[wordId] = v`: replace in place if the key
exists, else append. -/
def assocSet : List (String × WordProgress) → String → WordProgress → List (String × WordProgress)
  | [], w, v => [(w, v)]
  | (k, v') :: rest, w, v =>
      if k = w then (w, v) :: rest else (k, v') :: assocSet rest w v

/-- `findIndex`-then-`array[idx] = obj` upsert on the history array
(`idx === -1` pushes instead): replace the first entry whose `wordId`
matches, else append. -/
def upsertHistory : List HistoryEntry → String → HistoryEntry → List HistoryEntry
  | [], _, obj => [obj]
  | h :: rest, w, obj =>
      if h.wordId = w then obj :: rest else h :: upsertHistory rest w obj

/-- `findIndex`-then-`splice(idx, 1)` (`idx === -1` leaves the array alone):
remove the first occurrence of `w`, if any. -/
def spliceFirst : List String → String → List String
  | [], _ => []
  | x :: rest, w => if x = w then rest else x :: spliceFirst rest w

/-- `if (idx === -1) array.push(w)`: append `w` unless already present. -/
def pushIfAbsent (l : List String) (w : String) : List String :=
  if w ∈ l then l else l ++ [w]

/-- Normalisation applied to a history entry found by `getProgressEntry`:
`typeof e.ease === 'number' ? e.ease : 2.5`, likewise interval (default 0),
`reviewCount || 0`, and the timestamps passed through. -/
def normalizeHistory (h : HistoryEntry) : WordProgress :=
  { ease := match h.ease with | some q => q | none => 2.5
    interval := match h.interval with | some q => q | none => 0
    reviewCount := match h.reviewCount with | some n => n | none => 0
    lastReviewed := h.lastReviewed
    nextReview := h.nextReview }

/-- The default entry returned when neither the map nor the history knows the
word. -/
def defaultEntry : WordProgress :=
  { ease := 2.5, interval := 0, reviewCount := 0, lastReviewed := none, nextReview := none }

/-- `getProgressEntry(user, wordId)` from `src/routes/flashcards.js`:
returns `null` when `user.progress` is absent; else the map entry if present;
else the first history entry whose `wordId` matches (`Array.prototype.find`),
normalised; else the default entry. The container-shape repairs the JS
function performs are no-ops here because the model's containers are total. -/
def getProgressEntry (user : User) (wordId : String) : Option WordProgress :=
  match user.progress with
  | none => none
  | some p =>
    match assocGet p.words.map wordId with
    | some mapEntry => some mapEntry
    | none =>
      match p.wordsHistory.find? (fun e => e.wordId == wordId) with
      | some h => some (normalizeHistory h)
      | none => some defaultEntry

/-- The history object `setProgressEntry` writes:
`{wordId, ease, interval, reviewCount, lastReviewed, nextReview}`. -/
def histObj (wordId : String) (entry : WordProgress) : HistoryEntry :=
  { wordId := wordId
    ease := some entry.ease
    interval := some entry.interval
    reviewCount := some entry.reviewCount
    lastReviewed := entry.lastReviewed
    nextReview := entry.nextReview }

/-- `setProgressEntry(user, wordId, entry)` from `src/routes/flashcards.js`:
creates missing containers, writes the map entry field by field, upserts the
history entry, and recomputes the legacy arrays with
`isMastered = interval >= 7 && ease > 2.6` and
`isNeeds = ease < 2.0 || interval < 7`: the mastered branch pushes to
`mastered` (if absent) and splices out of `needsReview` (if present), the
needs branch does the opposite, the final branch splices out of both. -/
def setProgressEntry (user : User) (wordId : String) (entry : WordProgress) : User :=
  let p := user.progress.getD emptyProgress
  let map2 := assocSet p.words.map wordId
    { ease := entry.ease, interval := entry.interval, reviewCount := entry.reviewCount,
      lastReviewed := entry.lastReviewed, nextReview := entry.nextReview }
  let hist2 := upsertHistory p.wordsHistory wordId (histObj wordId entry)
  let mastered2 :=
    if 7 ≤ entry.interval ∧ (2.6 : ℚ) < entry.ease then
      pushIfAbsent p.words.mastered wordId
    else
      spliceFirst p.words.mastered wordId
  let needsReview2 :=
    if 7 ≤ entry.interval ∧ (2.6 : ℚ) < entry.ease then
      spliceFirst p.words.needsReview wordId
    else if entry.ease < 2 ∨ entry.interval < 7 then
      pushIfAbsent p.words.needsReview wordId
    else
      spliceFirst p.words.needsReview wordId
  { progress := some
      { words := { map := map2, mastered := mastered2, needsReview := needsReview2 },
        wordsHistory := hist2 } }

/-- The scheduling core of `router.post('/review')`: from the previous
`(ease, interval)` and the `difficulty` string, the new `(ease, interval)`.
`(interval || 1)` floors a zero interval to 1; any difficulty other than
`'easy'` and `'medium'` takes the `else` (hard) branch. -/
def schedule (ease interval : ℚ) (difficulty : String) : ℚ × ℚ :=
  if difficulty = "easy" then
    (min 3.0 (ease + 0.15), max 1 ((if interval = 0 then 1 else interval) * ease))
  else if difficulty = "medium" then
    (max 1.3 (ease - 0.15), max 0.5 ((if interval = 0 then 1 else interval) * 0.8))
  else
    (1.8, 0.1)

/-- The HTTP outcome of the review route. -/
inductive RouteResult where
  | badRequest (msg : String)
  | notFound (msg : String)
  | saved (progress : WordProgress)
deriving DecidableEq, Repr

/-- JS falsiness of a request-body string field: absent or empty. -/
def strFalsy : Option String → Bool
  | none => true
  | some s => s == ""

/-- `router.post('/review')` from `src/routes/flashcards.js`, with the store
collaborators as parameters: `lookupUser` is the result of
`User.findById(userId)`, `wordExists` that of `Word.findById(wordId)`,
`userIdValid` / `wordIdValid` the `isValidObjectId` checks, and `now` the
request time in ms. Returns the HTTP result paired with the stored user state
after the request (`user.save()` happens only on the success path). -/
def postReview (lookupUser : Option User) (wordExists : Bool)
    (userIdValid wordIdValid : Bool)
    (wordId? difficulty? : Option String) (now : ℚ) : RouteResult × Option User :=
  if strFalsy wordId? || strFalsy difficulty? then
    (.badRequest "wordId and difficulty are required", lookupUser)
  else if !(userIdValid && wordIdValid) then
    (.badRequest "Invalid userId or wordId", lookupUser)
  else
    match lookupUser with
    | none => (.notFound "User not found", none)
    | some user =>
      if !wordExists then (.notFound "Word not found", some user)
      else
        let wordId := wordId?.getD ""
        let difficulty := difficulty?.getD ""
        let prev := (getProgressEntry user wordId).getD
          { ease := 2.5, interval := 0, reviewCount := 0, lastReviewed := none, nextReview := none }
        let s := schedule prev.ease prev.interval difficulty
        let nextReview := now + s.2 * 86400000
        let updated : WordProgress :=
          { ease := s.1, interval := s.2, reviewCount := prev.reviewCount + 1,
            lastReviewed := some now, nextReview := some nextReview }
        (.saved updated, some (setProgressEntry user wordId updated))

/-- `user.progress.words[...]` map as seen through the defaults
`setProgressEntry` installs. -/
def mapOf (u : User) : List (String × WordProgress) :=
  (u.progress.getD emptyProgress).words.map

/-- The legacy `mastered` id array of a user. -/
def masteredOf (u : User) : List String :=
  (u.progress.getD emptyProgress).words.mastered

/-- The legacy `needsReview` id array of a user. -/
def needsReviewOf (u : User) : List String :=
  (u.progress.getD emptyProgress).words.needsReview

/-- The `wordsHistory` array of a user. -/
def historyOf (u : User) : List HistoryEntry :=
  (u.progress.getD emptyProgress).wordsHistory

/-! ### Scheduler dispatch lemmas -/

theorem schedule_easy (e i : ℚ) :
    schedule e i "easy" =
      (min 3.0 (e + 0.15), max 1 ((if i = 0 then 1 else i) * e)) := by
  unfold schedule
  rw [if_pos rfl]

theorem schedule_medium (e i : ℚ) :
    schedule e i "medium" =
      (max 1.3 (e - 0.15), max 0.5 ((if i = 0 then 1 else i) * 0.8)) := by
  unfold schedule
  rw [if_neg (by decide), if_pos rfl]

theorem schedule_hard (e i : ℚ) : schedule e i "hard" = (1.8, 0.1) := by
  unfold schedule
  rw [if_neg (by decide), if_neg (by decide)]

theorem schedule_other (e i : ℚ) (d : String) (h1 : d ≠ "easy") (h2 : d ≠ "medium") :
    schedule e i d = (1.8, 0.1) := by
  unfold schedule
  rw [if_neg h1, if_neg h2]

/-- C3: for every previous `(ease, interval)`, outcome `hard` yields exactly
`newEase = 1.8` and `newInterval = 0.1`, regardless of the previous values. -/
theorem C3_hard_fixed_override (ease interval : ℚ) :
    schedule ease interval "hard" = (1.8, 0.1) :=
  schedule_hard ease interval

/-- C4: outcome `easy` yields `newInterval = max(1, m * ease)` with a
zero/falsy previous interval floored to `1` as multiplicand, and
`newEase = min(3.0, ease + 0.15)`; from `(2.5, 0)` it yields
`(2.65, 2.5)`. -/
theorem C4_easy_formula (ease interval : ℚ) :
    schedule ease interval "easy" =
      (min 3.0 (ease + 0.15), max 1 ((if interval = 0 then 1 else interval) * ease)) ∧
    schedule 2.5 0 "easy" = (2.65, 2.5) := by
  refine ⟨schedule_easy ease interval, ?_⟩
  rw [schedule_easy]
  norm_num

/-- C5: outcome `medium` yields `newInterval = max(0.5, m * 0.8)` with a
zero/falsy previous interval floored to `1` as multiplicand, and
`newEase = max(1.3, ease - 0.15)`; from `(2.5, 10)` it yields
`(2.35, 8)`. -/
theorem C5_medium_formula (ease interval : ℚ) :
    schedule ease interval "medium" =
      (max 1.3 (ease - 0.15), max 0.5 ((if interval = 0 then 1 else interval) * 0.8)) ∧
    schedule 2.5 10 "medium" = (2.35, 8) := by
  refine ⟨schedule_medium ease interval, ?_⟩
  rw [schedule_medium]
  norm_num

/-- C9: for every review step with previous ease in `[1.3, 3.0]` and outcome
`easy`, `medium` or `hard`, the new ease is again in `[1.3, 3.0]`. -/
theorem C9_ease_bounds_preserved (ease interval : ℚ) (d : String)
    (h1 : (1.3 : ℚ) ≤ ease) (h2 : ease ≤ 3)
    (hd : d = "easy" ∨ d = "medium" ∨ d = "hard") :
    (1.3 : ℚ) ≤ (schedule ease interval d).1 ∧ (schedule ease interval d).1 ≤ 3 := by
  rcases hd with rfl | rfl | rfl
  · rw [schedule_easy]
    constructor
    · refine le_min (by norm_num) (by linarith)
    · exact le_trans (min_le_left _ _) (by norm_num)
  · rw [schedule_medium]
    constructor
    · exact le_max_left _ _
    · exact max_le (by norm_num) (by linarith)
  · rw [schedule_hard]
    norm_num

/-- Instantiation of `C9_ease_bounds_preserved` at ease `2.5`, interval `0`,
outcome `easy`. -/
theorem C9_witness :
    ((1.3 : ℚ) ≤ 2.5 ∧ (2.5 : ℚ) ≤ 3) ∧
      ((1.3 : ℚ) ≤ (schedule 2.5 0 "easy").1 ∧ (schedule 2.5 0 "easy").1 ≤ 3) :=
  ⟨⟨by norm_num, by norm_num⟩,
    C9_ease_bounds_preserved 2.5 0 "easy" (by norm_num) (by norm_num) (Or.inl rfl)⟩

/-! ### Association-list and array-helper lemmas -/

theorem assocGet_assocSet_self (m : List (String × WordProgress)) (w : String)
    (v : WordProgress) : assocGet (assocSet m w v) w = some v := by
  induction m with
  | nil => simp [assocSet, assocGet]
  | cons kv rest ih =>
    obtain ⟨k, v'⟩ := kv
    by_cases hk : k = w
    · simp [assocSet, assocGet, hk]
    · simp [assocSet, assocGet, hk, ih]

theorem assocGet_assocSet_ne (m : List (String × WordProgress)) {w w' : String}
    (v : WordProgress) (hne : w' ≠ w) :
    assocGet (assocSet m w v) w' = assocGet m w' := by
  induction m with
  | nil => simp [assocSet, assocGet, Ne.symm hne]
  | cons kv rest ih =>
    obtain ⟨k, v'⟩ := kv
    by_cases hk : k = w
    · subst hk
      simp [assocSet, assocGet, Ne.symm hne]
    · simp only [assocSet, if_neg hk, assocGet]
      by_cases hk' : k = w'
      · simp [hk']
      · simp [hk', ih]

theorem mem_spliceFirst_of_ne {l : List String} {w w' : String} (hne : w' ≠ w) :
    w' ∈ spliceFirst l w ↔ w' ∈ l := by
  induction l with
  | nil => simp [spliceFirst]
  | cons x rest ih =>
    by_cases hx : x = w
    · subst hx
      simp [spliceFirst, List.mem_cons, hne]
    · simp [spliceFirst, hx, List.mem_cons, ih]

theorem not_mem_spliceFirst_self {l : List String} {w : String}
    (hcount : l.count w ≤ 1) : w ∉ spliceFirst l w := by
  induction l with
  | nil => simp [spliceFirst]
  | cons x rest ih =>
    by_cases hx : x = w
    · subst hx
      rw [List.count_cons_self] at hcount
      have h0 : rest.count x = 0 := by omega
      simp only [spliceFirst, if_pos rfl]
      exact (List.count_eq_zero).mp h0
    · rw [List.count_cons_of_ne (fun h => hx h.symm)] at hcount
      simp only [spliceFirst, if_neg hx, List.mem_cons]
      rintro (h | h)
      · exact hx h.symm
      · exact ih hcount h

theorem mem_pushIfAbsent_self (l : List String) (w : String) :
    w ∈ pushIfAbsent l w := by
  unfold pushIfAbsent
  split_ifs with h
  · exact h
  · simp

theorem mem_pushIfAbsent_of_ne {l : List String} {w w' : String} (hne : w' ≠ w) :
    w' ∈ pushIfAbsent l w ↔ w' ∈ l := by
  unfold pushIfAbsent
  split_ifs with h
  · rfl
  · simp [hne]

theorem upsertHistory_length (l : List HistoryEntry) (w : String) (obj : HistoryEntry) :
    l.length ≤ (upsertHistory l w obj).length := by
  induction l with
  | nil => simp [upsertHistory]
  | cons h rest ih =>
    by_cases hw : h.wordId = w
    · simp [upsertHistory, hw]
    · simpa [upsertHistory, hw] using ih

theorem upsertHistory_append (l : List HistoryEntry) (w : String) (obj : HistoryEntry)
    (hno : ∀ h ∈ l, h.wordId ≠ w) : upsertHistory l w obj = l ++ [obj] := by
  induction l with
  | nil => simp [upsertHistory]
  | cons h rest ih =>
    have hw : h.wordId ≠ w := hno h (List.mem_cons_self h rest)
    simp only [upsertHistory, if_neg hw, List.cons_append, List.cons.injEq, true_and]
    exact ih fun x hx => hno x (List.mem_cons_of_mem h hx)

theorem upsertHistory_replace_first (l1 : List HistoryEntry) (h : HistoryEntry)
    (l2 : List HistoryEntry) (w : String) (obj : HistoryEntry)
    (hno : ∀ x ∈ l1, x.wordId ≠ w) (hh : h.wordId = w) :
    upsertHistory (l1 ++ h :: l2) w obj = l1 ++ obj :: l2 := by
  induction l1 with
  | nil => simp [upsertHistory, hh]
  | cons x rest ih =>
    have hx : x.wordId ≠ w := hno x (List.mem_cons_self x rest)
    simp only [List.cons_append, upsertHistory, if_neg hx, List.cons.injEq, true_and]
    exact ih fun y hy => hno y (List.mem_cons_of_mem x hy)

theorem mem_upsertHistory_of_ne {l : List HistoryEntry} {w : String}
    {obj h : HistoryEntry} (hmem : h ∈ l) (hne : h.wordId ≠ w) :
    h ∈ upsertHistory l w obj := by
  induction l with
  | nil => simp at hmem
  | cons x rest ih =>
    by_cases hx : x.wordId = w
    · rcases List.mem_cons.mp hmem with rfl | hmem'
      · exact absurd hx hne
      · simp [upsertHistory, hx, hmem']
    · rcases List.mem_cons.mp hmem with rfl | hmem'
      · simp [upsertHistory, hx]
      · simp [upsertHistory, hx, ih hmem']

theorem filter_upsertHistory_ne (l : List HistoryEntry) {w w' : String}
    (obj : HistoryEntry) (hobj : obj.wordId = w) (hne : w' ≠ w) :
    (upsertHistory l w obj).filter (fun e => e.wordId == w') =
      l.filter (fun e => e.wordId == w') := by
  have hww : (w == w') = false := by simp [Ne.symm hne]
  induction l with
  | nil =>
    simp [upsertHistory, List.filter, hobj, hww]
  | cons h rest ih =>
    by_cases hw : h.wordId = w
    · have hh : (h.wordId == w') = false := by
        simp [hw, Ne.symm hne]
      have hob : (obj.wordId == w') = false := by
        simp [hobj, Ne.symm hne]
      simp [upsertHistory, hw, List.filter, hh, hob, hww]
    · simp only [upsertHistory, if_neg hw, List.filter]
      rw [ih]

/-! ### Reconciler write/read properties -/

/-- C7: writing an entry with `setProgressEntry` and reading it back with
`getProgressEntry` returns an entry equal to the written one in all five
fields, for every user state, word id and entry. -/
theorem C7_set_get_roundtrip (u : User) (w : String) (e : WordProgress) :
    getProgressEntry (setProgressEntry u w e) w = some e := by
  simp only [setProgressEntry, getProgressEntry, Option.getD_some]
  rw [assocGet_assocSet_self]

/-- C6: after `setProgressEntry(u, w, e)` (from a state where `w` occurs at
most once in each legacy array, the shape the writer itself maintains), `w`
is in `mastered` exactly when `e.interval ≥ 7 ∧ e.ease > 2.6`, in
`needsReview` exactly when it is not mastered and
`e.ease < 2.0 ∨ e.interval < 7`, and never in both. -/
theorem C6_mastery_classification (u : User) (w : String) (e : WordProgress)
    (hm : (masteredOf u).count w ≤ 1) (hn : (needsReviewOf u).count w ≤ 1) :
    (w ∈ masteredOf (setProgressEntry u w e) ↔
      (7 ≤ e.interval ∧ (2.6 : ℚ) < e.ease)) ∧
    (w ∈ needsReviewOf (setProgressEntry u w e) ↔
      (¬(7 ≤ e.interval ∧ (2.6 : ℚ) < e.ease) ∧ (e.ease < 2 ∨ e.interval < 7))) ∧
    ¬(w ∈ masteredOf (setProgressEntry u w e) ∧
      w ∈ needsReviewOf (setProgressEntry u w e)) := by
  have hM : masteredOf (setProgressEntry u w e) =
      if 7 ≤ e.interval ∧ (2.6 : ℚ) < e.ease then pushIfAbsent (masteredOf u) w
      else spliceFirst (masteredOf u) w := by
    simp only [setProgressEntry, masteredOf, Option.getD_some]
  have hN : needsReviewOf (setProgressEntry u w e) =
      if 7 ≤ e.interval ∧ (2.6 : ℚ) < e.ease then spliceFirst (needsReviewOf u) w
      else if e.ease < 2 ∨ e.interval < 7 then pushIfAbsent (needsReviewOf u) w
      else spliceFirst (needsReviewOf u) w := by
    simp only [setProgressEntry, needsReviewOf, Option.getD_some]
  rw [hM, hN]
  by_cases hMc : 7 ≤ e.interval ∧ (2.6 : ℚ) < e.ease
  · rw [if_pos hMc, if_pos hMc]
    refine ⟨iff_of_true (mem_pushIfAbsent_self _ _) hMc,
      iff_of_false (not_mem_spliceFirst_self hn) (fun h => h.1 hMc), ?_⟩
    rintro ⟨-, hmem⟩
    exact not_mem_spliceFirst_self hn hmem
  · rw [if_neg hMc, if_neg hMc]
    by_cases hNc : e.ease < 2 ∨ e.interval < 7
    · rw [if_pos hNc]
      refine ⟨iff_of_false (not_mem_spliceFirst_self hm) hMc,
        iff_of_true (mem_pushIfAbsent_self _ _) ⟨hMc, hNc⟩, ?_⟩
      rintro ⟨hmem, -⟩
      exact not_mem_spliceFirst_self hm hmem
    · rw [if_neg hNc]
      refine ⟨iff_of_false (not_mem_spliceFirst_self hm) hMc,
        iff_of_false (not_mem_spliceFirst_self hn) (fun h => hNc h.2), ?_⟩
      rintro ⟨hmem, -⟩
      exact not_mem_spliceFirst_self hm hmem

/-- Concrete entry used to instantiate `C6_mastery_classification`. -/
def eC6 : WordProgress :=
  { ease := 2.7, interval := 10, reviewCount := 1, lastReviewed := none, nextReview := none }

/-- Instantiation of `C6_mastery_classification` on a fresh user and the entry
`eC6` (ease 2.7, interval 10). -/
theorem C6_witness :
    ((masteredOf (User.mk none)).count "w1" ≤ 1 ∧
     (needsReviewOf (User.mk none)).count "w1" ≤ 1) ∧
    (("w1" ∈ masteredOf (setProgressEntry (User.mk none) "w1" eC6) ↔
        (7 ≤ eC6.interval ∧ (2.6 : ℚ) < eC6.ease)) ∧
     ("w1" ∈ needsReviewOf (setProgressEntry (User.mk none) "w1" eC6) ↔
        (¬(7 ≤ eC6.interval ∧ (2.6 : ℚ) < eC6.ease) ∧
          (eC6.ease < 2 ∨ eC6.interval < 7))) ∧
     ¬("w1" ∈ masteredOf (setProgressEntry (User.mk none) "w1" eC6) ∧
        "w1" ∈ needsReviewOf (setProgressEntry (User.mk none) "w1" eC6))) :=
  ⟨⟨by decide, by decide⟩,
    C6_mastery_classification (User.mk none) "w1" eC6 (by decide) (by decide)⟩

/-- C10: `setProgressEntry(u, w, e)` leaves every piece of progress data for
a different word id `w'` unchanged: the map binding for `w'`, the sublist of
history entries whose `wordId` is `w'`, and membership of `w'` in the
`mastered` and `needsReview` arrays. -/
theorem C10_frame (u : User) (w w' : String) (e : WordProgress) (hne : w' ≠ w) :
    assocGet (mapOf (setProgressEntry u w e)) w' = assocGet (mapOf u) w' ∧
    (historyOf (setProgressEntry u w e)).filter (fun h => h.wordId == w') =
      (historyOf u).filter (fun h => h.wordId == w') ∧
    (w' ∈ masteredOf (setProgressEntry u w e) ↔ w' ∈ masteredOf u) ∧
    (w' ∈ needsReviewOf (setProgressEntry u w e) ↔ w' ∈ needsReviewOf u) := by
  have hmap : mapOf (setProgressEntry u w e) =
      assocSet (mapOf u) w
        { ease := e.ease, interval := e.interval, reviewCount := e.reviewCount,
          lastReviewed := e.lastReviewed, nextReview := e.nextReview } := by
    simp only [setProgressEntry, mapOf, Option.getD_some]
  have hhist : historyOf (setProgressEntry u w e) =
      upsertHistory (historyOf u) w (histObj w e) := by
    simp only [setProgressEntry, historyOf, Option.getD_some]
  have hM : masteredOf (setProgressEntry u w e) =
      if 7 ≤ e.interval ∧ (2.6 : ℚ) < e.ease then pushIfAbsent (masteredOf u) w
      else spliceFirst (masteredOf u) w := by
    simp only [setProgressEntry, masteredOf, Option.getD_some]
  have hN : needsReviewOf (setProgressEntry u w e) =
      if 7 ≤ e.interval ∧ (2.6 : ℚ) < e.ease then spliceFirst (needsReviewOf u) w
      else if e.ease < 2 ∨ e.interval < 7 then pushIfAbsent (needsReviewOf u) w
      else spliceFirst (needsReviewOf u) w := by
    simp only [setProgressEntry, needsReviewOf, Option.getD_some]
  refine ⟨?_, ?_, ?_, ?_⟩
  · rw [hmap]
    exact assocGet_assocSet_ne _ _ hne
  · rw [hhist]
    exact filter_upsertHistory_ne _ _ rfl hne
  · rw [hM]
    split_ifs
    · exact mem_pushIfAbsent_of_ne hne
    · exact mem_spliceFirst_of_ne hne
  · rw [hN]
    split_ifs
    · exact mem_spliceFirst_of_ne hne
    · exact mem_pushIfAbsent_of_ne hne
    · exact mem_spliceFirst_of_ne hne

/-- Concrete user and entry used to instantiate `C10_frame`. -/
def uC10 : User :=
  { progress := some
      { words :=
          { map := [("b", { ease := 2.5, interval := 1, reviewCount := 1,
                            lastReviewed := none, nextReview := none })]
            mastered := ["b"]
            needsReview := [] }
        wordsHistory := [{ wordId := "b", ease := some 2.5, interval := some 1,
                           reviewCount := some 1, lastReviewed := none, nextReview := none }] } }

/-- Concrete entry written by the `C10_frame` instantiation. -/
def eC10 : WordProgress :=
  { ease := 1.5, interval := 1, reviewCount := 1, lastReviewed := none, nextReview := none }

/-- Instantiation of `C10_frame`: reviewing word `"a"` leaves the data of
word `"b"` untouched. -/
theorem C10_witness :
    ("b" : String) ≠ "a" ∧
    (assocGet (mapOf (setProgressEntry uC10 "a" eC10)) "b" = assocGet (mapOf uC10) "b" ∧
     (historyOf (setProgressEntry uC10 "a" eC10)).filter (fun h => h.wordId == "b") =
       (historyOf uC10).filter (fun h => h.wordId == "b") ∧
     ("b" ∈ masteredOf (setProgressEntry uC10 "a" eC10) ↔ "b" ∈ masteredOf uC10) ∧
     ("b" ∈ needsReviewOf (setProgressEntry uC10 "a" eC10) ↔ "b" ∈ needsReviewOf uC10)) :=
  ⟨by decide, C10_frame uC10 "a" "b" eC10 (by decide)⟩

/-! ### History upsert (C8) -/

/-- A history snapshot present before a second review of the same word. -/
def h0C8 : HistoryEntry :=
  { wordId := "w1", ease := some 2, interval := some 5, reviewCount := some 1,
    lastReviewed := none, nextReview := none }

/-- A user whose history already holds `h0C8`. -/
def uC8 : User :=
  { progress := some
      { words := { map := [], mastered := [], needsReview := [] },
        wordsHistory := [h0C8] } }

/-- C8 counterexample: the history is not append-only. Writing a new entry
for `"w1"` to a user whose history already holds the snapshot `h0C8` for
`"w1"` destroys that previously recorded snapshot instead of appending. -/
theorem C8_counterexample :
    h0C8 ∈ historyOf uC8 ∧
    h0C8 ∉ historyOf (setProgressEntry uC8 "w1"
      { ease := 3, interval := 6, reviewCount := 2,
        lastReviewed := none, nextReview := none }) := by
  constructor
  · decide
  · decide

/-- C8 amended: `setProgressEntry` maintains the history by upsert keyed on
`wordId`, not by pure append: the history never shrinks; when no existing
entry has the written word id the snapshot is appended; when one does, the
first such entry is replaced in place; and every snapshot for a *different*
word id is preserved. -/
theorem C8_history_upsert_amended (u : User) (w : String) (e : WordProgress) :
    (historyOf u).length ≤ (historyOf (setProgressEntry u w e)).length ∧
    ((∀ h ∈ historyOf u, h.wordId ≠ w) →
      historyOf (setProgressEntry u w e) = historyOf u ++ [histObj w e]) ∧
    (∀ l1 h l2, historyOf u = l1 ++ h :: l2 → (∀ x ∈ l1, x.wordId ≠ w) →
      h.wordId = w →
      historyOf (setProgressEntry u w e) = l1 ++ histObj w e :: l2) ∧
    (∀ h ∈ historyOf u, h.wordId ≠ w →
      h ∈ historyOf (setProgressEntry u w e)) := by
  have hhist : historyOf (setProgressEntry u w e) =
      upsertHistory (historyOf u) w (histObj w e) := by
    simp only [setProgressEntry, historyOf, Option.getD_some]
  rw [hhist]
  refine ⟨upsertHistory_length _ _ _, upsertHistory_append _ _ _, ?_, ?_⟩
  · intro l1 h l2 hdecomp hno hh
    rw [hdecomp]
    exact upsertHistory_replace_first l1 h l2 w _ hno hh
  · intro h hmem hne
    exact mem_upsertHistory_of_ne hmem hne

/-- Concrete entry written by the `C8_history_upsert_amended`
instantiation. -/
def eC8 : WordProgress :=
  { ease := 2.2, interval := 3, reviewCount := 2, lastReviewed := none, nextReview := none }

/-- Instantiation of `C8_history_upsert_amended`: on the user `uC8` a write
for the fresh word `"w2"` appends, and a write for the already-present word
`"w1"` replaces the existing snapshot in place. -/
theorem C8_witness :
    historyOf (setProgressEntry uC8 "w2" eC8) = historyOf uC8 ++ [histObj "w2" eC8] ∧
    historyOf (setProgressEntry uC8 "w1" eC8) = [] ++ histObj "w1" eC8 :: [] :=
  ⟨(C8_history_upsert_amended uC8 "w2" eC8).2.1 (by decide),
   (C8_history_upsert_amended uC8 "w1" eC8).2.2.1 [] h0C8 [] (by decide)
     (by intro x hx; simp at hx) (by decide)⟩

/-! ### Read contract (C2) -/

/-- A user whose history holds two snapshots for `"w1"`: an older one
(`ease 2`) recorded first and a newer one (`ease 3`) recorded last. -/
def uC2 : User :=
  { progress := some
      { words := { map := [], mastered := [], needsReview := [] },
        wordsHistory :=
          [{ wordId := "w1", ease := some 2, interval := some 5, reviewCount := some 1,
             lastReviewed := none, nextReview := none },
           { wordId := "w1", ease := some 3, interval := some 6, reviewCount := some 2,
             lastReviewed := none, nextReview := none }] } }

/-- C2 counterexample: (a) for a user with no progress data at all the lookup
returns `null`, not the default entry; (b) with two history snapshots for the
word, the lookup returns the *first* (oldest) matching snapshot, not the
latest one. -/
theorem C2_counterexample :
    getProgressEntry (User.mk none) "w1" ≠ some defaultEntry ∧
    getProgressEntry uC2 "w1" =
      some (normalizeHistory
        { wordId := "w1", ease := some 2, interval := some 5, reviewCount := some 1,
          lastReviewed := none, nextReview := none }) ∧
    getProgressEntry uC2 "w1" ≠
      some (normalizeHistory
        { wordId := "w1", ease := some 3, interval := some 6, reviewCount := some 2,
          lastReviewed := none, nextReview := none }) := by
  refine ⟨by decide, by decide, by decide⟩

/-- C2 amended: for a user *with* a progress object, `getProgressEntry`
never fails and returns the map (R2) entry if present, else the **first**
matching history (R3) entry normalised to the WordProgress shape, else the
default entry `{ease 2.5, interval 0, reviewCount 0, lastReviewed null,
nextReview null}`; for a user with no progress object at all it returns
`null` instead of the default entry. -/
theorem C2_read_contract_amended (p : UserProgress) (w : String) :
    getProgressEntry (User.mk none) w = none ∧
    (∃ v, getProgressEntry (User.mk (some p)) w = some v) ∧
    (∀ e, assocGet p.words.map w = some e →
      getProgressEntry (User.mk (some p)) w = some e) ∧
    (∀ h, assocGet p.words.map w = none →
      p.wordsHistory.find? (fun x => x.wordId == w) = some h →
      getProgressEntry (User.mk (some p)) w = some (normalizeHistory h)) ∧
    (assocGet p.words.map w = none →
      p.wordsHistory.find? (fun x => x.wordId == w) = none →
      getProgressEntry (User.mk (some p)) w = some defaultEntry) := by
  refine ⟨rfl, ?_, ?_, ?_, ?_⟩
  · cases hm : assocGet p.words.map w with
    | some e => exact ⟨e, by simp [getProgressEntry, hm]⟩
    | none =>
      cases hf : p.wordsHistory.find? (fun x => x.wordId == w) with
      | some h => exact ⟨normalizeHistory h, by simp [getProgressEntry, hm, hf]⟩
      | none => exact ⟨defaultEntry, by simp [getProgressEntry, hm, hf]⟩
  · intro e he
    simp [getProgressEntry, he]
  · intro h hm hf
    simp [getProgressEntry, hm, hf]
  · intro hm hf
    simp [getProgressEntry, hm, hf]

/-- Instantiation of `C2_read_contract_amended` on the empty progress object:
an un-reviewed word yields the default entry. -/
theorem C2_witness :
    assocGet emptyProgress.words.map "w1" = none ∧
    emptyProgress.wordsHistory.find? (fun x => x.wordId == "w1") = none ∧
    getProgressEntry (User.mk (some emptyProgress)) "w1" = some defaultEntry :=
  ⟨rfl, rfl, (C2_read_contract_amended emptyProgress "w1").2.2.2.2 rfl rfl⟩

/-! ### Review-route validation (C1) -/

/-- C1 counterexample: a review whose outcome is the non-member, non-empty
value `"banana"` is *not* rejected. With valid identifiers, an existing word
and a fresh user, the route answers `saved` — the hard branch ran
(`ease 1.8`, `interval 0.1`, `nextReview = 0.1 day` in ms) — and the stored
user state changed. -/
theorem C1_counterexample :
    (postReview (some (User.mk none)) true true true
        (some "w1") (some "banana") 0).1 =
      RouteResult.saved
        { ease := 1.8, interval := 0.1, reviewCount := 1,
          lastReviewed := some 0, nextReview := some 8640000 } ∧
    (postReview (some (User.mk none)) true true true
        (some "w1") (some "banana") 0).2 ≠ some (User.mk none) := by
  constructor
  · norm_num +decide [postReview, strFalsy, getProgressEntry, schedule]
  · decide

/-- C1 amended: only a *missing or empty* outcome is rejected (with the
validation error `wordId and difficulty are required`, leaving the stored
state unchanged); every non-empty outcome value other than `easy` and
`medium` — including values outside `{easy, medium, hard}` — passes
validation and is processed exactly like `hard`. -/
theorem C1_invalid_outcome_amended (lookupUser : Option User)
    (wordExists userIdValid wordIdValid : Bool) (wordId? : Option String)
    (d : String) (now : ℚ) :
    (postReview lookupUser wordExists userIdValid wordIdValid wordId? none now =
      (.badRequest "wordId and difficulty are required", lookupUser)) ∧
    (postReview lookupUser wordExists userIdValid wordIdValid wordId? (some "") now =
      (.badRequest "wordId and difficulty are required", lookupUser)) ∧
    (d ≠ "" → d ≠ "easy" → d ≠ "medium" →
      postReview lookupUser wordExists userIdValid wordIdValid wordId? (some d) now =
        postReview lookupUser wordExists userIdValid wordIdValid wordId? (some "hard") now) := by
  refine ⟨?_, ?_, ?_⟩
  · simp [postReview, strFalsy]
  · simp [postReview, strFalsy]
  · intro h1 h2 h3
    have hd : strFalsy (some d) = false := by simp [strFalsy, h1]
    have hh : strFalsy (some "hard") = false := rfl
    have hs : ∀ e i : ℚ, schedule e i d = schedule e i "hard" := fun e i => by
      rw [schedule_other e i d h2 h3, schedule_hard]
    simp only [postReview, hd, hh, Bool.or_false, Option.getD_some]
    cases hw : strFalsy wordId? with
    | true => rfl
    | false =>
      cases hv : userIdValid && wordIdValid with
      | false => rfl
      | true =>
        cases lookupUser with
        | none => rfl
        | some user =>
          cases wordExists with
          | false => rfl
          | true => simp only [hs]

/-- Instantiation of `C1_invalid_outcome_amended`: the non-member outcome
`"unknown"` is handled exactly like `"hard"`. -/
theorem C1_witness :
    postReview (some (User.mk none)) true true true (some "w2") (some "unknown") 0 =
      postReview (some (User.mk none)) true true true (some "w2") (some "hard") 0 :=
  (C1_invalid_outcome_amended (some (User.mk none)) true true true
      (some "w2") "unknown" 0).2.2 (by decide) (by decide) (by decide)

end Flashcards
